import Mathlib

/-!
Shallow embedding of the CORAAL data-preparation scripts
(`push_to_huggingface.py` and `verify_stats.py`) together with proofs about
the transcript-cleaning, metadata, filename and duration logic.

Modelling conventions.
Strings are `List Char` internally, with `String` wrappers at the interface.
Python regular-expression substitutions (`re.sub`) are recursive functions
scanning left to right, replacing non-overlapping matches and resuming after
each match, exactly as `re.sub` does.  A file read is modelled by the list of
lines the iterator yields before either the end of the file or an I/O
exception, plus a flag saying whether such an exception interrupts the read
(a failure to open is the empty list with the flag set).  Python floats are
modelled as exact rationals; the only float operation the scripts perform is
parsing a decimal literal, which is exact in this model.  Recursions that
jump past a matched span take an explicit fuel argument (initialised with the
length of the input) so that every function reduces by `decide` / `rfl`.
-/

namespace Coraal

/-- Python whitespace in the ASCII range, as used by `str.split()`,
`str.strip()` and the regex class `\s`. -/
def pyIsSpace (c : Char) : Bool :=
  c = ' ' || c = '\t' || c = '\n' || c = '\r' || c = '\x0b' || c = '\x0c'

theorem pyIsSpace_space : pyIsSpace ' ' = true := by decide

theorem not_pyIsSpace_iff (c : Char) :
    pyIsSpace c = false ↔
      c ≠ ' ' ∧ c ≠ '\t' ∧ c ≠ '\n' ∧ c ≠ '\r' ∧ c ≠ '\x0b' ∧ c ≠ '\x0c' := by
  simp only [pyIsSpace, Bool.or_eq_false_iff, decide_eq_false_iff_not]
  tauto

/-- Split a list at the first occurrence of `t`: `some (b, a)` with
`l = b ++ t :: a` and `t ∉ b`; `none` when `t` does not occur. -/
def splitFirst (t : Char) : List Char → Option (List Char × List Char)
  | [] => none
  | c :: rest =>
    if c = t then some ([], rest)
    else (splitFirst t rest).map (fun p => (c :: p.1, p.2))

theorem splitFirst_spec (t : Char) :
    ∀ (l b a : List Char), splitFirst t l = some (b, a) →
      l = b ++ t :: a ∧ t ∉ b := by
  intro l
  induction l with
  | nil => intro b a h; simp [splitFirst] at h
  | cons c rest ih =>
    intro b a h
    by_cases hc : c = t
    · simp only [splitFirst, if_pos hc, Option.some.injEq, Prod.mk.injEq] at h
      obtain ⟨hb, ha⟩ := h
      subst hb; subst ha; subst hc
      simp
    · rw [splitFirst, if_neg hc] at h
      rcases hsf : splitFirst t rest with _ | p
      · rw [hsf] at h; simp at h
      · rw [hsf] at h
        simp only [Option.map_some', Option.some.injEq, Prod.mk.injEq] at h
        obtain ⟨hb, ha⟩ := h
        obtain ⟨hl, hnb⟩ := ih p.1 p.2 (by rw [hsf])
        subst ha
        constructor
        · rw [← hb]; simp [hl]
        · rw [← hb]
          intro hmem
          rcases List.mem_cons.mp hmem with h1 | h2
          · exact hc h1.symm
          · exact hnb h2

theorem splitFirst_none (t : Char) :
    ∀ (l : List Char), splitFirst t l = none ↔ t ∉ l := by
  intro l
  induction l with
  | nil => simp [splitFirst]
  | cons c rest ih =>
    by_cases hc : c = t
    · simp [splitFirst, hc]
    · simp [splitFirst, hc, Option.map_eq_none', ih]
      intro h; exact fun he => hc he.symm

theorem splitFirst_isSome_of_mem (t : Char) (l : List Char) (h : t ∈ l) :
    (splitFirst t l).isSome := by
  rcases hs : splitFirst t l with _ | p
  · exact absurd h ((splitFirst_none t l).mp hs)
  · simp

theorem splitFirst_append (t : Char) :
    ∀ (l b a y : List Char), splitFirst t l = some (b, a) →
      splitFirst t (l ++ y) = some (b, a ++ y) := by
  intro l
  induction l with
  | nil => intro b a y h; simp [splitFirst] at h
  | cons c rest ih =>
    intro b a y h
    by_cases hc : c = t
    · simp only [splitFirst, if_pos hc, Option.some.injEq, Prod.mk.injEq] at h
      obtain ⟨hb, ha⟩ := h
      subst hb; subst ha
      simp [List.cons_append, splitFirst, if_pos hc]
    · rw [splitFirst, if_neg hc] at h
      rcases hsf : splitFirst t rest with _ | p
      · rw [hsf] at h; simp at h
      · rw [hsf] at h
        simp only [Option.map_some', Option.some.injEq, Prod.mk.injEq] at h
        obtain ⟨hb, ha⟩ := h
        have hrec := ih p.1 p.2 y (by rw [hsf])
        rw [List.cons_append, splitFirst, if_neg hc, hrec, Option.map_some',
          ← hb, ← ha]

theorem splitFirst_cons_self (t : Char) (rest : List Char) :
    splitFirst t (t :: rest) = some ([], rest) := by
  simp [splitFirst]

theorem length_dropWhile_le (p : Char → Bool) (l : List Char) :
    (l.dropWhile p).length ≤ l.length :=
  (List.dropWhile_sublist p).length_le

/-- Python `str.split()` with no argument: the maximal runs of
non-whitespace characters.  Fueled (with fuel at least the input length)
so that it is structurally recursive and reduces inside `decide`. -/
def wordsF : Nat → List Char → List (List Char)
  | _, [] => []
  | 0, _ :: _ => []
  | n + 1, c :: rest =>
    if pyIsSpace c then wordsF n rest
    else (c :: rest.takeWhile (fun d => !pyIsSpace d)) ::
      wordsF n (rest.dropWhile (fun d => !pyIsSpace d))

def words (l : List Char) : List (List Char) := wordsF l.length l

theorem wordsF_nil (n : Nat) : wordsF n [] = [] := by
  cases n <;> rfl

theorem wordsF_irrel :
    ∀ (n : Nat) (l : List Char) (m : Nat), l.length ≤ n → l.length ≤ m →
      wordsF n l = wordsF m l := by
  intro n
  induction n with
  | zero =>
    intro l m hn _
    have hl : l = [] := List.eq_nil_of_length_eq_zero (Nat.le_zero.mp hn)
    subst hl
    rw [wordsF_nil, wordsF_nil]
  | succ n ih =>
    intro l m hn hm
    cases l with
    | nil => rw [wordsF_nil, wordsF_nil]
    | cons c rest =>
      cases m with
      | zero => simp at hm
      | succ m =>
        simp only [wordsF]
        have h1 : rest.length ≤ n := Nat.lt_succ_iff.mp hn
        have h2 : rest.length ≤ m := Nat.lt_succ_iff.mp hm
        by_cases hc : pyIsSpace c
        · rw [if_pos hc, if_pos hc, ih rest m h1 h2]
        · rw [if_neg hc, if_neg hc,
            ih (rest.dropWhile (fun d => !pyIsSpace d)) m
              (Nat.le_trans (length_dropWhile_le _ rest) h1)
              (Nat.le_trans (length_dropWhile_le _ rest) h2)]

theorem words_nil : words [] = [] := rfl

theorem words_cons_space {c : Char} (hc : pyIsSpace c = true)
    (rest : List Char) : words (c :: rest) = words rest := by
  show wordsF (rest.length + 1) (c :: rest) = wordsF rest.length rest
  simp only [wordsF, if_pos hc]

theorem words_cons_nonspace {c : Char} (hc : pyIsSpace c = false)
    (rest : List Char) :
    words (c :: rest) =
      (c :: rest.takeWhile (fun d => !pyIsSpace d)) ::
        words (rest.dropWhile (fun d => !pyIsSpace d)) := by
  show wordsF (rest.length + 1) (c :: rest) = _
  simp only [wordsF, if_neg (by simp [hc] : ¬ pyIsSpace c = true)]
  rw [wordsF_irrel rest.length (rest.dropWhile (fun d => !pyIsSpace d))
    (rest.dropWhile (fun d => !pyIsSpace d)).length
    (length_dropWhile_le _ rest) (Nat.le_refl _)]
  rfl

theorem words_good :
    ∀ (l : List Char), ∀ w ∈ words l, w ≠ [] ∧ ∀ c ∈ w, pyIsSpace c = false := by
  have key : ∀ (n : Nat) (l : List Char), l.length ≤ n →
      ∀ w ∈ wordsF n l, w ≠ [] ∧ ∀ c ∈ w, pyIsSpace c = false := by
    intro n
    induction n with
    | zero =>
      intro l hn
      have hl : l = [] := List.eq_nil_of_length_eq_zero (Nat.le_zero.mp hn)
      subst hl; simp [wordsF_nil]
    | succ n ih =>
      intro l hn w hw
      cases l with
      | nil => rw [wordsF_nil] at hw; simp at hw
      | cons c rest =>
        have h1 : rest.length ≤ n := Nat.lt_succ_iff.mp hn
        simp only [wordsF] at hw
        by_cases hc : pyIsSpace c
        · rw [if_pos hc] at hw
          exact ih rest h1 w hw
        · rw [if_neg hc] at hw
          rcases List.mem_cons.mp hw with h | h
          · subst h
            refine ⟨by simp, ?_⟩
            intro x hx
            rcases List.mem_cons.mp hx with h | h
            · subst h; exact Bool.of_not_eq_true hc
            · have := List.mem_takeWhile_imp h
              simpa using this
          · exact ih _ (Nat.le_trans (length_dropWhile_le _ rest) h1) w h
  intro l
  exact key l.length l (Nat.le_refl _)

theorem words_mem_subset :
    ∀ (l : List Char), ∀ w ∈ words l, ∀ x ∈ w, x ∈ l := by
  have key : ∀ (n : Nat) (l : List Char), l.length ≤ n →
      ∀ w ∈ wordsF n l, ∀ x ∈ w, x ∈ l := by
    intro n
    induction n with
    | zero =>
      intro l hn
      have hl : l = [] := List.eq_nil_of_length_eq_zero (Nat.le_zero.mp hn)
      subst hl; simp [wordsF_nil]
    | succ n ih =>
      intro l hn w hw x hx
      cases l with
      | nil => rw [wordsF_nil] at hw; simp at hw
      | cons c rest =>
        have h1 : rest.length ≤ n := Nat.lt_succ_iff.mp hn
        simp only [wordsF] at hw
        by_cases hc : pyIsSpace c
        · rw [if_pos hc] at hw
          exact List.mem_cons_of_mem c (ih rest h1 w hw x hx)
        · rw [if_neg hc] at hw
          rcases List.mem_cons.mp hw with h | h
          · subst h
            rcases List.mem_cons.mp hx with h | h
            · subst h; exact List.mem_cons_self _ _
            · exact List.mem_cons_of_mem c
                ((List.takeWhile_sublist _).subset h)
          · exact List.mem_cons_of_mem c
              ((List.dropWhile_sublist _).subset
                (ih _ (Nat.le_trans (length_dropWhile_le _ rest) h1) w h x hx))
  intro l
  exact key l.length l (Nat.le_refl _)

/-- `' '.join ws`: the words joined by single spaces. -/
def joinSp : List (List Char) → List Char
  | [] => []
  | [w] => w
  | w :: x :: ws => w ++ ' ' :: joinSp (x :: ws)

/-- `' '.join(content.split())`: collapse whitespace runs and trim. -/
def collapse (l : List Char) : List Char := joinSp (words l)

theorem joinSp_cons_head (c : Char) (w : List Char) :
    ∀ (ws : List (List Char)), joinSp ((c :: w) :: ws) = c :: joinSp (w :: ws) := by
  intro ws
  cases ws with
  | nil => rfl
  | cons x ws => rfl

theorem joinSp_mem :
    ∀ (ws : List (List Char)) (x : Char), x ∈ joinSp ws →
      x = ' ' ∨ ∃ w ∈ ws, x ∈ w := by
  intro ws
  induction ws with
  | nil => intro x hx; simp [joinSp] at hx
  | cons w ws ih =>
    intro x hx
    cases ws with
    | nil =>
      simp only [joinSp] at hx
      exact Or.inr ⟨w, by simp, hx⟩
    | cons v ws2 =>
      simp only [joinSp, List.mem_append, List.mem_cons] at hx
      rcases hx with h | h | h
      · exact Or.inr ⟨w, by simp, h⟩
      · exact Or.inl h
      · rcases ih x h with h2 | ⟨u, hu, hxu⟩
        · exact Or.inl h2
        · exact Or.inr ⟨u, List.mem_cons_of_mem w hu, hxu⟩

theorem collapse_mem (l : List Char) (x : Char) (hx : x ∈ collapse l) :
    x = ' ' ∨ x ∈ l := by
  rcases joinSp_mem (words l) x hx with h | ⟨w, hw, hxw⟩
  · exact Or.inl h
  · exact Or.inr (words_mem_subset l w hw x hxw)

theorem takeWhile_append_stop (p : Char → Bool) :
    ∀ (w : List Char) (x : Char) (t : List Char),
      (∀ a ∈ w, p a = true) → p x = false →
      (w ++ x :: t).takeWhile p = w := by
  intro w
  induction w with
  | nil => intro x t _ hx; simp [List.takeWhile_cons, hx]
  | cons a w ih =>
    intro x t hw hx
    have ha : p a = true := hw a (by simp)
    simp only [List.cons_append, List.takeWhile_cons, ha, if_true]
    rw [ih x t (fun b hb => hw b (List.mem_cons_of_mem a hb)) hx]

theorem dropWhile_append_stop (p : Char → Bool) :
    ∀ (w : List Char) (x : Char) (t : List Char),
      (∀ a ∈ w, p a = true) → p x = false →
      (w ++ x :: t).dropWhile p = x :: t := by
  intro w
  induction w with
  | nil => intro x t _ hx; simp [List.dropWhile_cons, hx]
  | cons a w ih =>
    intro x t hw hx
    have ha : p a = true := hw a (by simp)
    simp only [List.cons_append, List.dropWhile_cons, ha, if_true]
    exact ih x t (fun b hb => hw b (List.mem_cons_of_mem a hb)) hx

theorem words_single (w : List Char) (hne : w ≠ [])
    (hns : ∀ c ∈ w, pyIsSpace c = false) : words w = [w] := by
  cases w with
  | nil => exact absurd rfl hne
  | cons c w2 =>
    have hc : pyIsSpace c = false := hns c (by simp)
    rw [words_cons_nonspace hc]
    have ht : w2.takeWhile (fun d => !pyIsSpace d) = w2 :=
      List.takeWhile_eq_self_iff.mpr
        (fun x hx => by simp [hns x (List.mem_cons_of_mem c hx)])
    have hd : w2.dropWhile (fun d => !pyIsSpace d) = [] :=
      List.dropWhile_eq_nil_iff.mpr
        (fun x hx => by simp [hns x (List.mem_cons_of_mem c hx)])
    rw [ht, hd, words_nil]

theorem words_append_word (w : List Char) (hne : w ≠ [])
    (hns : ∀ c ∈ w, pyIsSpace c = false) (t : List Char) :
    words (w ++ ' ' :: t) = w :: words t := by
  cases w with
  | nil => exact absurd rfl hne
  | cons c w2 =>
    have hc : pyIsSpace c = false := hns c (by simp)
    rw [List.cons_append, words_cons_nonspace hc]
    have ht : (w2 ++ ' ' :: t).takeWhile (fun d => !pyIsSpace d) = w2 :=
      takeWhile_append_stop _ w2 ' ' t
        (fun a ha => by simp [hns a (List.mem_cons_of_mem c ha)])
        (by simp [pyIsSpace_space])
    have hd : (w2 ++ ' ' :: t).dropWhile (fun d => !pyIsSpace d) = ' ' :: t :=
      dropWhile_append_stop _ w2 ' ' t
        (fun a ha => by simp [hns a (List.mem_cons_of_mem c ha)])
        (by simp [pyIsSpace_space])
    rw [ht, hd, words_cons_space pyIsSpace_space]

theorem words_joinSp :
    ∀ (ws : List (List Char)),
      (∀ w ∈ ws, w ≠ [] ∧ ∀ c ∈ w, pyIsSpace c = false) →
      words (joinSp ws) = ws := by
  intro ws
  induction ws with
  | nil => intro _; simp [joinSp, words_nil]
  | cons w ws ih =>
    intro hgood
    obtain ⟨hne, hns⟩ := hgood w (by simp)
    cases ws with
    | nil =>
      show words (joinSp [w]) = [w]
      simp only [joinSp]
      exact words_single w hne hns
    | cons x ws2 =>
      show words (w ++ ' ' :: joinSp (x :: ws2)) = w :: x :: ws2
      rw [words_append_word w hne hns,
        ih (fun u hu => hgood u (List.mem_cons_of_mem w hu))]

theorem words_collapse (l : List Char) : words (collapse l) = words l :=
  words_joinSp (words l) (words_good l)

theorem collapse_idem (l : List Char) : collapse (collapse l) = collapse l := by
  show joinSp (words (collapse l)) = collapse l
  rw [words_collapse]
  rfl

/-- Replace every maximal whitespace run by a single space (keeping a
leading or trailing run as one space).  Proof-only device relating
`collapse` to the original string. -/
def squeeze : List Char → List Char
  | [] => []
  | [c] => if pyIsSpace c then [' '] else [c]
  | c :: d :: rest =>
    if pyIsSpace c && pyIsSpace d then squeeze (d :: rest)
    else (if pyIsSpace c then ' ' else c) :: squeeze (d :: rest)

theorem squeeze_cons_nonspace {c : Char} (hc : pyIsSpace c = false) :
    ∀ (L : List Char), squeeze (c :: L) = c :: squeeze L := by
  intro L
  cases L with
  | nil => simp [squeeze, hc]
  | cons d rest => simp [squeeze, hc]

theorem squeeze_cons_space_space {c d : Char} (hc : pyIsSpace c = true)
    (hd : pyIsSpace d = true) (rest : List Char) :
    squeeze (c :: d :: rest) = squeeze (d :: rest) := by
  simp [squeeze, hc, hd]

theorem squeeze_cons_space_nonspace {c d : Char} (hc : pyIsSpace c = true)
    (hd : pyIsSpace d = false) (rest : List Char) :
    squeeze (c :: d :: rest) = ' ' :: squeeze (d :: rest) := by
  simp [squeeze, hc, hd]

theorem squeeze_head_space :
    ∀ (rest : List Char) (c : Char), pyIsSpace c = true →
      ∃ z, squeeze (c :: rest) = ' ' :: z := by
  intro rest
  induction rest with
  | nil => intro c hc; exact ⟨[], by simp [squeeze, hc]⟩
  | cons d rest2 ih =>
    intro c hc
    by_cases hd : pyIsSpace d
    · obtain ⟨z, hz⟩ := ih d hd
      exact ⟨z, by rw [squeeze_cons_space_space hc hd, hz]⟩
    · exact ⟨squeeze (d :: rest2),
        squeeze_cons_space_nonspace hc (Bool.of_not_eq_true hd) rest2⟩

theorem squeeze_mem :
    ∀ (l : List Char) (x : Char), x ∈ squeeze l → x = ' ' ∨ x ∈ l := by
  intro l
  induction l with
  | nil => intro x hx; simp [squeeze] at hx
  | cons c L ih =>
    intro x hx
    cases L with
    | nil =>
      by_cases hc : pyIsSpace c
      · simp [squeeze, hc] at hx
        exact Or.inl hx
      · simp [squeeze, hc] at hx
        exact Or.inr (by simp [hx])
    | cons d rest =>
      by_cases hc : pyIsSpace c
      · by_cases hd : pyIsSpace d
        · rw [squeeze_cons_space_space hc hd] at hx
          rcases ih x hx with h | h
          · exact Or.inl h
          · exact Or.inr (List.mem_cons_of_mem c h)
        · rw [squeeze_cons_space_nonspace hc (Bool.of_not_eq_true hd)] at hx
          rcases List.mem_cons.mp hx with h | h
          · exact Or.inl h
          · rcases ih x h with h2 | h2
            · exact Or.inl h2
            · exact Or.inr (List.mem_cons_of_mem c h2)
      · rw [squeeze_cons_nonspace (Bool.of_not_eq_true hc)] at hx
        rcases List.mem_cons.mp hx with h | h
        · exact Or.inr (by simp [h])
        · rcases ih x h with h2 | h2
          · exact Or.inl h2
          · exact Or.inr (List.mem_cons_of_mem c h2)

theorem squeeze_cons_inv :
    ∀ (l : List Char) (d : Char) (z : List Char),
      squeeze l = d :: z → pyIsSpace d = false →
      ∃ l2, l = d :: l2 ∧ z = squeeze l2 := by
  intro l d z hsq hd
  cases l with
  | nil => simp [squeeze] at hsq
  | cons c L =>
    cases L with
    | nil =>
      by_cases hc : pyIsSpace c
      · simp [squeeze, hc] at hsq
        rw [← hsq.1] at hd
        simp [pyIsSpace_space] at hd
      · simp [squeeze, hc] at hsq
        exact ⟨[], by simp [hsq.1.symm], hsq.2⟩
    | cons e rest =>
      by_cases hc : pyIsSpace c
      · by_cases he : pyIsSpace e
        · rw [squeeze_cons_space_space hc he] at hsq
          obtain ⟨z2, hz2⟩ := squeeze_head_space rest e he
          rw [hz2] at hsq
          have : d = ' ' := by
            have := congrArg (fun t => t.head?) hsq
            simpa using this.symm
          rw [this] at hd
          simp [pyIsSpace_space] at hd
        · rw [squeeze_cons_space_nonspace hc (Bool.of_not_eq_true he)] at hsq
          have : ' ' = d := by
            have := congrArg (fun t => t.head?) hsq
            simpa using this
          rw [← this] at hd
          simp [pyIsSpace_space] at hd
      · rw [squeeze_cons_nonspace (Bool.of_not_eq_true hc)] at hsq
        have h1 : c = d := by
          have := congrArg (fun t => t.head?) hsq
          simpa using this
        have h2 : squeeze (e :: rest) = z := by
          have := congrArg (fun t => t.tail) hsq
          simpa using this
        exact ⟨e :: rest, by rw [h1], h2.symm⟩

theorem squeeze_prefix_inv :
    ∀ (xs l z : List Char),
      squeeze l = xs ++ z → (∀ x ∈ xs, pyIsSpace x = false) →
      ∃ l2, l = xs ++ l2 ∧ z = squeeze l2 := by
  intro xs
  induction xs with
  | nil => intro l z h _; exact ⟨l, by simp, by simp at h; exact h.symm⟩
  | cons x xs ih =>
    intro l z h hns
    have hx : pyIsSpace x = false := hns x (by simp)
    obtain ⟨l2, hl2, hz2⟩ := squeeze_cons_inv l x (xs ++ z) (by simpa using h) hx
    obtain ⟨l3, hl3, hz3⟩ := ih l2 z hz2.symm
      (fun a ha => hns a (List.mem_cons_of_mem x ha))
    exact ⟨l3, by rw [hl2, hl3]; rfl, hz3⟩

theorem squeeze_append_nonspace :
    ∀ (t r : List Char), (∀ c ∈ t, pyIsSpace c = false) →
      squeeze (t ++ r) = t ++ squeeze r := by
  intro t
  induction t with
  | nil => intro r _; rfl
  | cons a t ih =>
    intro r hns
    have ha : pyIsSpace a = false := hns a (by simp)
    rw [List.cons_append, squeeze_cons_nonspace ha,
      ih r (fun c hc => hns c (List.mem_cons_of_mem a hc))]
    rfl

/-- One space when the string starts with whitespace, else nothing:
the leading-run part of `squeeze` relative to `collapse`. -/
def leadOf : List Char → List Char
  | [] => []
  | c :: _ => if pyIsSpace c then [' '] else []

theorem squeeze_STR :
    ∀ (l : List Char), ∃ t, (t = [] ∨ (t = [' '] ∧ collapse l ≠ [])) ∧
      squeeze l = leadOf l ++ collapse l ++ t := by
  intro l
  induction l with
  | nil => exact ⟨[], Or.inl rfl, rfl⟩
  | cons c tail ih =>
    cases tail with
    | nil =>
      by_cases hc : pyIsSpace c
      · refine ⟨[], Or.inl rfl, ?_⟩
        have hw : words [c] = [] := by
          rw [words_cons_space hc, words_nil]
        simp [squeeze, hc, leadOf, collapse, hw, joinSp]
      · refine ⟨[], Or.inl rfl, ?_⟩
        have hc2 : pyIsSpace c = false := Bool.of_not_eq_true hc
        have hw : words [c] = [[c]] := by
          rw [words_cons_nonspace hc2]
          simp [words_nil]
        simp [squeeze, hc, leadOf, collapse, hw, joinSp]
    | cons d rest =>
      obtain ⟨t, hcond, hstr⟩ := ih
      by_cases hc : pyIsSpace c
      · have hcol : collapse (c :: d :: rest) = collapse (d :: rest) := by
          unfold collapse
          rw [words_cons_space hc]
        by_cases hd : pyIsSpace d
        · refine ⟨t, by rw [hcol]; exact hcond, ?_⟩
          rw [squeeze_cons_space_space hc hd, hstr, hcol]
          simp [leadOf, hc, hd]
        · refine ⟨t, by rw [hcol]; exact hcond, ?_⟩
          rw [squeeze_cons_space_nonspace hc (Bool.of_not_eq_true hd), hstr,
            hcol]
          simp [leadOf, hc, hd]
      · have hc2 : pyIsSpace c = false := Bool.of_not_eq_true hc
        rw [squeeze_cons_nonspace hc2, hstr]
        by_cases hd : pyIsSpace d
        · -- the word containing `c` ends here: `d` is whitespace
          have htw : (d :: rest).takeWhile (fun e => !pyIsSpace e) = [] := by
            simp [List.takeWhile_cons, hd]
          have hdw : (d :: rest).dropWhile (fun e => !pyIsSpace e)
              = d :: rest := by
            simp [List.dropWhile_cons, hd]
          have hwords : words (c :: d :: rest) = [c] :: words (d :: rest) := by
            rw [words_cons_nonspace hc2, htw, hdw]
          rcases hw2 : words (d :: rest) with _ | ⟨w, ws⟩
          · -- nothing after the whitespace: trailing run
            have hcol2 : collapse (d :: rest) = [] := by
              unfold collapse; rw [hw2]; rfl
            have ht : t = [] := by
              rcases hcond with h | ⟨_, hne⟩
              · exact h
              · exact absurd hcol2 hne
            have hcol : collapse (c :: d :: rest) = [c] := by
              unfold collapse; rw [hwords, hw2]; rfl
            refine ⟨[' '], Or.inr ⟨rfl, by rw [hcol]; simp⟩, ?_⟩
            rw [hcol, hcol2, ht]
            simp [leadOf, hc, hd]
          · have hcol : collapse (c :: d :: rest)
                = c :: ' ' :: collapse (d :: rest) := by
              unfold collapse
              rw [hwords, hw2]
              rfl
            refine ⟨t, ?_, ?_⟩
            · rcases hcond with h | ⟨h1, _⟩
              · exact Or.inl h
              · exact Or.inr ⟨h1, by rw [hcol]; simp⟩
            · rw [hcol]
              simp [leadOf, hc, hd]
        · -- `c` and `d` belong to the same word
          have hd2 : pyIsSpace d = false := Bool.of_not_eq_true hd
          have htw : (d :: rest).takeWhile (fun e => !pyIsSpace e)
              = d :: rest.takeWhile (fun e => !pyIsSpace e) := by
            simp [List.takeWhile_cons, hd2]
          have hdw : (d :: rest).dropWhile (fun e => !pyIsSpace e)
              = rest.dropWhile (fun e => !pyIsSpace e) := by
            simp [List.dropWhile_cons, hd2]
          have hcol : collapse (c :: d :: rest) = c :: collapse (d :: rest) := by
            unfold collapse
            rw [words_cons_nonspace hc2, htw, hdw, words_cons_nonspace hd2,
              joinSp_cons_head]
          refine ⟨t, ?_, ?_⟩
          · rcases hcond with h | ⟨h1, _⟩
            · exact Or.inl h
            · exact Or.inr ⟨h1, by rw [hcol]; simp⟩
          · rw [hcol]
            simp [leadOf, hc, hd]

/-! Regular-expression matchers for the text-mode cleaning rules of
`extract_text_from_txt`.  Each tries its pattern at the head of the list
and, on a match, returns the remainder after the matched span; `re.sub`
semantics (leftmost, non-overlapping, scan resumes after a match) are
recovered by the generic scanner below. -/

/-- The regex `<[^>]+>` tried at the head of the list. -/
def angleMatch : List Char → Option (List Char)
  | [] => none
  | c :: rest =>
    if c = '<' then
      match splitFirst '>' rest with
      | some (int, after) => if int = [] then none else some after
      | none => none
    else none

/-- The regex `/RD-[^/]+/` tried at the head of the list. -/
def rdMatch : List Char → Option (List Char)
  | a :: b :: c :: d :: rest =>
    if a = '/' ∧ b = 'R' ∧ c = 'D' ∧ d = '-' then
      match splitFirst '/' rest with
      | some (int, after) => if int = [] then none else some after
      | none => none
    else none
  | _ => none

/-- The regex `\([a-zA-Z]+\)` tried at the head of the list. -/
def parenMatch : List Char → Option (List Char)
  | [] => none
  | c :: rest =>
    if c = '(' then
      match rest.dropWhile Char.isAlpha with
      | x :: after =>
        if x = ')' ∧ rest.takeWhile Char.isAlpha ≠ [] then some after
        else none
      | [] => none
    else none

theorem angleMatch_dest (c : Char) (rest a : List Char)
    (h : angleMatch (c :: rest) = some a) :
    c = '<' ∧ ∃ int, splitFirst '>' rest = some (int, a) ∧ int ≠ [] := by
  by_cases hc : c = '<'
  · refine ⟨hc, ?_⟩
    rw [angleMatch, if_pos hc] at h
    rcases hs : splitFirst '>' rest with _ | ⟨int, after⟩
    · rw [hs] at h; simp at h
    · rw [hs] at h
      by_cases hi : int = []
      · simp [hi] at h
      · simp only [hi, ite_false] at h
        have ha : after = a := Option.some.inj h
        exact ⟨int, by rw [ha], hi⟩
  · rw [angleMatch, if_neg hc] at h
    simp at h

theorem angleMatch_intro (rest int after : List Char)
    (hs : splitFirst '>' rest = some (int, after)) (hi : int ≠ []) :
    angleMatch ('<' :: rest) = some after := by
  rw [angleMatch, if_pos rfl, hs]
  simp [hi]

theorem rdMatch_dest (l a : List Char) (h : rdMatch l = some a) :
    ∃ z, l = '/' :: 'R' :: 'D' :: '-' :: z ∧
      ∃ int, splitFirst '/' z = some (int, a) ∧ int ≠ [] := by
  rcases l with _ | ⟨x1, _ | ⟨x2, _ | ⟨x3, _ | ⟨x4, z⟩⟩⟩⟩ <;>
    simp only [rdMatch] at h
  pick_goal 5
  · by_cases hcond : x1 = '/' ∧ x2 = 'R' ∧ x3 = 'D' ∧ x4 = '-'
    · obtain ⟨h1, h2, h3, h4⟩ := hcond
      rw [if_pos ⟨h1, h2, h3, h4⟩] at h
      subst h1; subst h2; subst h3; subst h4
      refine ⟨z, rfl, ?_⟩
      rcases hs : splitFirst '/' z with _ | ⟨int, after⟩
      · rw [hs] at h; simp at h
      · rw [hs] at h
        by_cases hi : int = []
        · simp [hi] at h
        · simp only [hi, ite_false] at h
          have ha : after = a := Option.some.inj h
          exact ⟨int, by rw [ha], hi⟩
    · rw [if_neg hcond] at h
      simp at h
  all_goals simp at h

theorem rdMatch_intro (z int after : List Char)
    (hs : splitFirst '/' z = some (int, after)) (hi : int ≠ []) :
    rdMatch ('/' :: 'R' :: 'D' :: '-' :: z) = some after := by
  rw [rdMatch, if_pos ⟨rfl, rfl, rfl, rfl⟩, hs]
  simp [hi]

theorem parenMatch_dest (c : Char) (rest a : List Char)
    (h : parenMatch (c :: rest) = some a) :
    c = '(' ∧ rest.dropWhile Char.isAlpha = ')' :: a ∧
      rest.takeWhile Char.isAlpha ≠ [] := by
  by_cases hc : c = '('
  · rw [parenMatch, if_pos hc] at h
    rcases hd : rest.dropWhile Char.isAlpha with _ | ⟨x, after⟩
    · rw [hd] at h; simp at h
    · rw [hd] at h
      have h2 : (if x = ')' ∧ rest.takeWhile Char.isAlpha ≠ [] then some after
          else none) = some a := h
      by_cases hcond : x = ')' ∧ rest.takeWhile Char.isAlpha ≠ []
      · rw [if_pos hcond] at h2
        obtain ⟨hx, ht⟩ := hcond
        subst hx
        refine ⟨hc, ?_, ht⟩
        have ha : after = a := Option.some.inj h2
        rw [ha]
      · rw [if_neg hcond] at h2
        simp at h2
  · rw [parenMatch, if_neg hc] at h
    simp at h

theorem parenMatch_intro (rest a : List Char)
    (hd : rest.dropWhile Char.isAlpha = ')' :: a)
    (ht : rest.takeWhile Char.isAlpha ≠ []) :
    parenMatch ('(' :: rest) = some a := by
  rw [parenMatch, if_pos rfl, hd]
  show (if (')' : Char) = ')' ∧ rest.takeWhile Char.isAlpha ≠ [] then some a
      else none) = some a
  rw [if_pos ⟨rfl, ht⟩]

theorem angleMatch_length (l a : List Char) (h : angleMatch l = some a) :
    a.length < l.length := by
  cases l with
  | nil => simp [angleMatch] at h
  | cons c rest =>
    obtain ⟨_, int, hs, _⟩ := angleMatch_dest c rest a h
    obtain ⟨hr, _⟩ := splitFirst_spec '>' rest int a hs
    simp only [hr, List.length_cons, List.length_append]
    omega

theorem rdMatch_length (l a : List Char) (h : rdMatch l = some a) :
    a.length < l.length := by
  obtain ⟨z, hl, int, hs, _⟩ := rdMatch_dest l a h
  obtain ⟨hz, _⟩ := splitFirst_spec '/' z int a hs
  rw [hl, hz]
  simp only [List.length_cons, List.length_append]
  omega

theorem parenMatch_length (l a : List Char) (h : parenMatch l = some a) :
    a.length < l.length := by
  cases l with
  | nil => simp [parenMatch] at h
  | cons c rest =>
    obtain ⟨_, hd, _⟩ := parenMatch_dest c rest a h
    have h1 : rest.takeWhile Char.isAlpha ++ rest.dropWhile Char.isAlpha = rest :=
      List.takeWhile_append_dropWhile _ _
    rw [hd] at h1
    have h2 : (rest.takeWhile Char.isAlpha).length + (a.length + 1) = rest.length := by
      have := congrArg List.length h1
      simpa using this
    simp only [List.length_cons]
    omega

/-- Does the pattern match at some position of the list (`re.search`)? -/
def scanHas (pat : List Char → Option (List Char)) : List Char → Bool
  | [] => false
  | c :: rest => (pat (c :: rest)).isSome || scanHas pat rest

theorem scanHas_cons (pat : List Char → Option (List Char)) (c : Char)
    (rest : List Char) :
    scanHas pat (c :: rest) = ((pat (c :: rest)).isSome || scanHas pat rest) :=
  rfl

/-- `re.sub(pattern, '', s)`: delete every match, scanning left to right and
resuming after each deleted span.  Fueled (fuel at least the input length)
so that it is structurally recursive and reduces inside `decide`. -/
def subScanF (pat : List Char → Option (List Char)) :
    Nat → List Char → List Char
  | _, [] => []
  | 0, l => l
  | n + 1, c :: rest =>
    match pat (c :: rest) with
    | some after => subScanF pat n after
    | none => c :: subScanF pat n rest

def subScan (pat : List Char → Option (List Char)) (l : List Char) :
    List Char :=
  subScanF pat l.length l

theorem subScanF_nil (pat : List Char → Option (List Char)) (n : Nat) :
    subScanF pat n [] = [] := by
  cases n <;> rfl

theorem subScanF_irrel (pat : List Char → Option (List Char))
    (hlen : ∀ l a, pat l = some a → a.length < l.length) :
    ∀ (n : Nat) (l : List Char) (m : Nat), l.length ≤ n → l.length ≤ m →
      subScanF pat n l = subScanF pat m l := by
  intro n
  induction n with
  | zero =>
    intro l m hn _
    have hl : l = [] := List.eq_nil_of_length_eq_zero (Nat.le_zero.mp hn)
    subst hl
    rw [subScanF_nil, subScanF_nil]
  | succ n ih =>
    intro l m hn hm
    cases l with
    | nil => rw [subScanF_nil, subScanF_nil]
    | cons c rest =>
      cases m with
      | zero => simp at hm
      | succ m =>
        have h1 : rest.length ≤ n := Nat.lt_succ_iff.mp hn
        have h2 : rest.length ≤ m := Nat.lt_succ_iff.mp hm
        simp only [subScanF]
        rcases hp : pat (c :: rest) with _ | after
        · rw [ih rest m h1 h2]
        · have ha : after.length < rest.length + 1 := by
            have := hlen (c :: rest) after hp
            simpa using this
          exact ih after m (Nat.le_trans (Nat.lt_succ_iff.mp ha) h1)
            (Nat.le_trans (Nat.lt_succ_iff.mp ha) h2)

theorem subScan_match (pat : List Char → Option (List Char))
    (hlen : ∀ l a, pat l = some a → a.length < l.length)
    (c : Char) (rest after : List Char) (hp : pat (c :: rest) = some after) :
    subScan pat (c :: rest) = subScan pat after := by
  show subScanF pat (rest.length + 1) (c :: rest) = _
  simp only [subScanF, hp]
  have ha : after.length ≤ rest.length := by
    have := hlen (c :: rest) after hp
    simpa [Nat.lt_succ_iff] using this
  exact subScanF_irrel pat hlen rest.length after after.length ha (Nat.le_refl _)

theorem subScan_nomatch (pat : List Char → Option (List Char))
    (c : Char) (rest : List Char) (hp : pat (c :: rest) = none) :
    subScan pat (c :: rest) = c :: subScan pat rest := by
  show subScanF pat (rest.length + 1) (c :: rest) = _
  simp only [subScanF, hp]
  rfl

theorem subScan_id_of_not_scanHas (pat : List Char → Option (List Char))
    (_hlen : ∀ l a, pat l = some a → a.length < l.length) :
    ∀ (l : List Char), scanHas pat l = false → subScan pat l = l := by
  intro l
  induction l with
  | nil => intro _; rfl
  | cons c rest ih =>
    intro h
    rw [scanHas_cons, Bool.or_eq_false_iff] at h
    obtain ⟨h1, h2⟩ := h
    have hp : pat (c :: rest) = none := Option.not_isSome_iff_eq_none.mp
      (by simp [h1])
    rw [subScan_nomatch pat c rest hp, ih h2]

theorem scanHas_append_right (pat : List Char → Option (List Char))
    (happ : ∀ l a y, pat l = some a → (pat (l ++ y)).isSome = true) :
    ∀ (m y : List Char), scanHas pat m = true → scanHas pat (m ++ y) = true := by
  intro m
  induction m with
  | nil => intro y h; simp [scanHas] at h
  | cons c rest ih =>
    intro y h
    rw [scanHas_cons, Bool.or_eq_true_iff] at h
    rw [List.cons_append, scanHas_cons, Bool.or_eq_true_iff]
    rcases h with h | h
    · obtain ⟨a, ha⟩ := Option.isSome_iff_exists.mp h
      exact Or.inl (by rw [← List.cons_append]; exact happ (c :: rest) a y ha)
    · exact Or.inr (ih y h)

theorem scanHas_append_left (pat : List Char → Option (List Char)) :
    ∀ (x m : List Char), scanHas pat m = true → scanHas pat (x ++ m) = true := by
  intro x
  induction x with
  | nil => intro m h; simpa using h
  | cons a x ih =>
    intro m h
    rw [List.cons_append, scanHas_cons, Bool.or_eq_true_iff]
    exact Or.inr (ih m h)

theorem scanHas_squeeze (pat : List Char → Option (List Char))
    (hspace : ∀ rest, pat (' ' :: rest) = none)
    (htrans : ∀ c rest, (pat (c :: squeeze rest)).isSome = true →
      (pat (c :: rest)).isSome = true) :
    ∀ (l : List Char), scanHas pat (squeeze l) = true → scanHas pat l = true := by
  intro l
  induction l with
  | nil => intro h; simp [squeeze, scanHas] at h
  | cons c tail ih =>
    intro h
    cases tail with
    | nil =>
      by_cases hc : pyIsSpace c
      · simp only [squeeze, hc, if_true] at h
        rw [scanHas_cons, hspace, scanHas] at h
        simp at h
      · simpa [squeeze, hc] using h
    | cons d rest =>
      rw [scanHas_cons, Bool.or_eq_true_iff]
      by_cases hc : pyIsSpace c
      · by_cases hd : pyIsSpace d
        · rw [squeeze_cons_space_space hc hd] at h
          exact Or.inr (ih h)
        · rw [squeeze_cons_space_nonspace hc (Bool.of_not_eq_true hd),
            scanHas_cons, hspace] at h
          simp at h
          exact Or.inr (ih h)
      · rw [squeeze_cons_nonspace (Bool.of_not_eq_true hc), scanHas_cons,
          Bool.or_eq_true_iff] at h
        rcases h with h | h
        · exact Or.inl (htrans c (d :: rest) h)
        · exact Or.inr (ih h)

theorem scanHas_collapse (pat : List Char → Option (List Char))
    (hspace : ∀ rest, pat (' ' :: rest) = none)
    (htrans : ∀ c rest, (pat (c :: squeeze rest)).isSome = true →
      (pat (c :: rest)).isSome = true)
    (happ : ∀ l a y, pat l = some a → (pat (l ++ y)).isSome = true)
    (l : List Char) (h : scanHas pat l = false) :
    scanHas pat (collapse l) = false := by
  by_contra hcol
  have hcol2 : scanHas pat (collapse l) = true := by
    simpa using hcol
  obtain ⟨t, _, hstr⟩ := squeeze_STR l
  have hsq : scanHas pat (squeeze l) = true := by
    rw [hstr]
    rw [List.append_assoc]
    exact scanHas_append_left pat (leadOf l) (collapse l ++ t)
      (scanHas_append_right pat happ (collapse l) t hcol2)
  have := scanHas_squeeze pat hspace htrans l hsq
  rw [h] at this
  exact absurd this (by simp)

theorem angleMatch_space (rest : List Char) : angleMatch (' ' :: rest) = none := by
  rw [angleMatch, if_neg (by decide : ¬ (' ' : Char) = '<')]

theorem rdMatch_space (rest : List Char) : rdMatch (' ' :: rest) = none := by
  rcases rest with _ | ⟨b, _ | ⟨c, _ | ⟨d, r⟩⟩⟩
  · rfl
  · rfl
  · rfl
  · rw [rdMatch, if_neg]
    rintro ⟨h1, -⟩
    exact absurd h1 (by decide)

theorem parenMatch_space (rest : List Char) :
    parenMatch (' ' :: rest) = none := by
  rw [parenMatch, if_neg (by decide : ¬ (' ' : Char) = '(')]

theorem alpha_not_space (x : Char) (hx : Char.isAlpha x = true) :
    pyIsSpace x = false := by
  by_contra h
  have h2 : pyIsSpace x = true := by simpa using h
  simp only [pyIsSpace, Bool.or_eq_true, decide_eq_true_eq] at h2
  rcases h2 with ((((h3 | h3) | h3) | h3) | h3) | h3 <;>
    (subst h3; exact absurd hx (by decide))

theorem angleMatch_squeeze (c : Char) (rest : List Char)
    (h : (angleMatch (c :: squeeze rest)).isSome = true) :
    (angleMatch (c :: rest)).isSome = true := by
  obtain ⟨a, ha⟩ := Option.isSome_iff_exists.mp h
  obtain ⟨hc, int, hs, hi⟩ := angleMatch_dest c (squeeze rest) a ha
  subst hc
  obtain ⟨hsq, -⟩ := splitFirst_spec '>' (squeeze rest) int a hs
  have hmem : '>' ∈ squeeze rest := by rw [hsq]; simp
  have hmem2 : '>' ∈ rest := by
    rcases squeeze_mem rest '>' hmem with h2 | h2
    · exact absurd h2 (by decide)
    · exact h2
  obtain ⟨⟨int2, after2⟩, hs2⟩ :=
    Option.isSome_iff_exists.mp (splitFirst_isSome_of_mem '>' rest hmem2)
  have hi2 : int2 ≠ [] := by
    intro hempty
    subst hempty
    obtain ⟨hr2, -⟩ := splitFirst_spec '>' rest [] after2 hs2
    simp only [List.nil_append] at hr2
    have hsq2 : squeeze ('>' :: after2) = '>' :: squeeze after2 :=
      squeeze_cons_nonspace (by decide) after2
    rw [hr2, hsq2, splitFirst_cons_self] at hs
    have hpair := Option.some.inj hs
    exact hi (congrArg Prod.fst hpair).symm
  exact Option.isSome_iff_exists.mpr
    ⟨after2, angleMatch_intro rest int2 after2 hs2 hi2⟩

theorem rdMatch_squeeze (c : Char) (rest : List Char)
    (h : (rdMatch (c :: squeeze rest)).isSome = true) :
    (rdMatch (c :: rest)).isSome = true := by
  obtain ⟨a, ha⟩ := Option.isSome_iff_exists.mp h
  obtain ⟨z, hl, int, hs, hi⟩ := rdMatch_dest (c :: squeeze rest) a ha
  have hc : c = '/' := by
    have := congrArg (fun t => t.head?) hl
    simpa using this
  subst hc
  have htail : squeeze rest = 'R' :: 'D' :: '-' :: z := by
    have := congrArg (fun t => t.tail) hl
    simpa using this
  obtain ⟨r3, hr3, hz3⟩ := squeeze_prefix_inv ['R', 'D', '-'] rest z
    (by rw [htail]; rfl) (by decide)
  obtain ⟨hsq, -⟩ := splitFirst_spec '/' z int a hs
  have hmem : '/' ∈ squeeze r3 := by rw [← hz3, hsq]; simp
  have hmem2 : '/' ∈ r3 := by
    rcases squeeze_mem r3 '/' hmem with h2 | h2
    · exact absurd h2 (by decide)
    · exact h2
  obtain ⟨⟨int2, after2⟩, hs2⟩ :=
    Option.isSome_iff_exists.mp (splitFirst_isSome_of_mem '/' r3 hmem2)
  have hi2 : int2 ≠ [] := by
    intro hempty
    subst hempty
    obtain ⟨hr2, -⟩ := splitFirst_spec '/' r3 [] after2 hs2
    simp only [List.nil_append] at hr2
    have hsq2 : squeeze ('/' :: after2) = '/' :: squeeze after2 :=
      squeeze_cons_nonspace (by decide) after2
    rw [hz3, hr2, hsq2, splitFirst_cons_self] at hs
    have hpair := Option.some.inj hs
    exact hi (congrArg Prod.fst hpair).symm
  have : rdMatch ('/' :: rest) = some after2 := by
    rw [hr3]
    exact rdMatch_intro r3 int2 after2 hs2 hi2
  exact Option.isSome_iff_exists.mpr ⟨after2, this⟩

theorem parenMatch_squeeze (c : Char) (rest : List Char)
    (h : (parenMatch (c :: squeeze rest)).isSome = true) :
    (parenMatch (c :: rest)).isSome = true := by
  obtain ⟨a, ha⟩ := Option.isSome_iff_exists.mp h
  obtain ⟨hc, hd, ht⟩ := parenMatch_dest c (squeeze rest) a ha
  subst hc
  have hdecomp : (squeeze rest).takeWhile Char.isAlpha ++ ')' :: a
      = squeeze rest := by
    conv_rhs => rw [← List.takeWhile_append_dropWhile Char.isAlpha (squeeze rest)]
    rw [hd]
  have halpha : ∀ x ∈ (squeeze rest).takeWhile Char.isAlpha,
      Char.isAlpha x = true := fun x hx => List.mem_takeWhile_imp hx
  obtain ⟨l2, hl2, hz2⟩ := squeeze_prefix_inv
    ((squeeze rest).takeWhile Char.isAlpha) rest (')' :: a) hdecomp.symm
    (fun x hx => alpha_not_space x (halpha x hx))
  obtain ⟨l3, hl3, hz3⟩ := squeeze_cons_inv l2 ')' a hz2.symm (by decide)
  have hrest : rest = (squeeze rest).takeWhile Char.isAlpha ++ ')' :: l3 := by
    conv_lhs => rw [hl2, hl3]
  have htw : rest.takeWhile Char.isAlpha
      = (squeeze rest).takeWhile Char.isAlpha := by
    conv_lhs => rw [hrest]
    exact takeWhile_append_stop Char.isAlpha _ ')' l3 halpha (by decide)
  have hdw : rest.dropWhile Char.isAlpha = ')' :: l3 := by
    conv_lhs => rw [hrest]
    exact dropWhile_append_stop Char.isAlpha _ ')' l3 halpha (by decide)
  exact Option.isSome_iff_exists.mpr
    ⟨l3, parenMatch_intro rest l3 hdw (by rw [htw]; exact ht)⟩

theorem angleMatch_append (l a y : List Char) (h : angleMatch l = some a) :
    (angleMatch (l ++ y)).isSome = true := by
  cases l with
  | nil => simp [angleMatch] at h
  | cons c rest =>
    obtain ⟨hc, int, hs, hi⟩ := angleMatch_dest c rest a h
    subst hc
    exact Option.isSome_iff_exists.mpr
      ⟨a ++ y, angleMatch_intro (rest ++ y) int (a ++ y)
        (splitFirst_append '>' rest int a y hs) hi⟩

theorem rdMatch_append (l a y : List Char) (h : rdMatch l = some a) :
    (rdMatch (l ++ y)).isSome = true := by
  obtain ⟨z, hl, int, hs, hi⟩ := rdMatch_dest l a h
  subst hl
  exact Option.isSome_iff_exists.mpr
    ⟨a ++ y, rdMatch_intro (z ++ y) int (a ++ y)
      (splitFirst_append '/' z int a y hs) hi⟩

theorem parenMatch_append (l a y : List Char) (h : parenMatch l = some a) :
    (parenMatch (l ++ y)).isSome = true := by
  cases l with
  | nil => simp [parenMatch] at h
  | cons c rest =>
    obtain ⟨hc, hd, ht⟩ := parenMatch_dest c rest a h
    subst hc
    have halpha : ∀ x ∈ rest.takeWhile Char.isAlpha, Char.isAlpha x = true :=
      fun x hx => List.mem_takeWhile_imp hx
    have hrest : rest = rest.takeWhile Char.isAlpha ++ ')' :: a := by
      conv_lhs => rw [← List.takeWhile_append_dropWhile Char.isAlpha rest]
      rw [hd]
    have hresty : rest ++ y = rest.takeWhile Char.isAlpha ++ ')' :: (a ++ y) := by
      conv_lhs => rw [hrest]
      simp
    have htw : (rest ++ y).takeWhile Char.isAlpha = rest.takeWhile Char.isAlpha := by
      rw [hresty]
      exact takeWhile_append_stop Char.isAlpha _ ')' (a ++ y) halpha (by decide)
    have hdw : (rest ++ y).dropWhile Char.isAlpha = ')' :: (a ++ y) := by
      rw [hresty]
      exact dropWhile_append_stop Char.isAlpha _ ')' (a ++ y) halpha (by decide)
    exact Option.isSome_iff_exists.mpr
      ⟨a ++ y, parenMatch_intro (rest ++ y) (a ++ y) hdw (by rw [htw]; exact ht)⟩

theorem scanHas_mem_head (pat : List Char → Option (List Char)) (X : Char)
    (hhead : ∀ (c : Char) (rest a : List Char), pat (c :: rest) = some a → c = X) :
    ∀ (l : List Char), scanHas pat l = true → X ∈ l := by
  intro l
  induction l with
  | nil => intro h; simp [scanHas] at h
  | cons c rest ih =>
    intro h
    rw [scanHas_cons, Bool.or_eq_true_iff] at h
    rcases h with h | h
    · obtain ⟨a, ha⟩ := Option.isSome_iff_exists.mp h
      rw [hhead c rest a ha]
      exact List.mem_cons_self _ _
    · exact List.mem_cons_of_mem c (ih h)

/-- `re.sub(r'[\[\]]', '', content)`: drop square brackets, keep contents
(rule 2 of the text-mode cleaning). -/
def subSquare (l : List Char) : List Char :=
  l.filter (fun c => !(c = '[' || c = ']'))

def hasSquare (l : List Char) : Bool := l.any (fun c => c = '[' || c = ']')

/-- `re.sub(r'<[^>]+>', '', content)` (rule 3). -/
def subAngle (l : List Char) : List Char := subScan angleMatch l

def hasAngle (l : List Char) : Bool := scanHas angleMatch l

/-- `re.sub(r'/RD-[^/]+/', '', content)` (rule 4). -/
def subRD (l : List Char) : List Char := subScan rdMatch l

def hasRD (l : List Char) : Bool := scanHas rdMatch l

/-- `re.sub(r'\([a-zA-Z]+\)', '', content)` (rule 5). -/
def subParen (l : List Char) : List Char := subScan parenMatch l

def hasParen (l : List Char) : Bool := scanHas parenMatch l

theorem subSquare_id (l : List Char) (h : hasSquare l = false) :
    subSquare l = l := by
  rw [subSquare, List.filter_eq_self]
  intro a ha
  simp only [hasSquare, List.any_eq_false] at h
  simpa using h a ha

theorem subAngle_id (l : List Char) (h : hasAngle l = false) : subAngle l = l :=
  subScan_id_of_not_scanHas angleMatch angleMatch_length l h

theorem subRD_id (l : List Char) (h : hasRD l = false) : subRD l = l :=
  subScan_id_of_not_scanHas rdMatch rdMatch_length l h

theorem subParen_id (l : List Char) (h : hasParen l = false) : subParen l = l :=
  subScan_id_of_not_scanHas parenMatch parenMatch_length l h

theorem hasSquare_collapse (l : List Char) (h : hasSquare l = false) :
    hasSquare (collapse l) = false := by
  simp only [hasSquare, List.any_eq_false] at h ⊢
  intro x hx
  rcases collapse_mem l x hx with h2 | h2
  · subst h2; decide
  · exact h x h2

theorem hasAngle_collapse (l : List Char) (h : hasAngle l = false) :
    hasAngle (collapse l) = false :=
  scanHas_collapse angleMatch angleMatch_space angleMatch_squeeze
    angleMatch_append l h

theorem hasRD_collapse (l : List Char) (h : hasRD l = false) :
    hasRD (collapse l) = false :=
  scanHas_collapse rdMatch rdMatch_space rdMatch_squeeze rdMatch_append l h

theorem hasParen_collapse (l : List Char) (h : hasParen l = false) :
    hasParen (collapse l) = false :=
  scanHas_collapse parenMatch parenMatch_space parenMatch_squeeze
    parenMatch_append l h

theorem rdMatch_head (c : Char) (rest a : List Char)
    (h : rdMatch (c :: rest) = some a) : c = '/' := by
  obtain ⟨z, hl, -⟩ := rdMatch_dest (c :: rest) a h
  have := congrArg (fun t => t.head?) hl
  simpa using this

theorem hasSquare_false_of_not_mem (l : List Char)
    (h1 : '[' ∉ l) (h2 : ']' ∉ l) : hasSquare l = false := by
  simp only [hasSquare, List.any_eq_false]
  intro x hx
  simp only [Bool.or_eq_true, decide_eq_true_eq, not_or]
  exact ⟨fun he => h1 (he ▸ hx), fun he => h2 (he ▸ hx)⟩

theorem hasAngle_false_of_not_mem (l : List Char) (h : '<' ∉ l) :
    hasAngle l = false := by
  by_contra hc
  exact h (scanHas_mem_head angleMatch '<'
    (fun c rest a ha => (angleMatch_dest c rest a ha).1) l (by simpa using hc))

theorem hasRD_false_of_not_mem (l : List Char) (h : '/' ∉ l) :
    hasRD l = false := by
  by_contra hc
  exact h (scanHas_mem_head rdMatch '/' rdMatch_head l (by simpa using hc))

theorem hasParen_false_of_not_mem (l : List Char) (h : '(' ∉ l) :
    hasParen l = false := by
  by_contra hc
  exact h (scanHas_mem_head parenMatch '('
    (fun c rest a ha => (parenMatch_dest c rest a ha).1) l (by simpa using hc))

/-! Models of the functions of `push_to_huggingface.py`. -/

/-- Python `str.strip()`: remove leading and trailing whitespace. -/
def pyStrip (l : List Char) : List Char :=
  ((l.dropWhile pyIsSpace).reverse.dropWhile pyIsSpace).reverse

/-- Python `str.split('\t')`: split on single tabs, keeping empty fields. -/
def splitTab : List Char → List (List Char)
  | [] => [[]]
  | c :: rest =>
    if c = '\t' then [] :: splitTab rest
    else
      match splitTab rest with
      | p :: ps => (c :: p) :: ps
      | [] => [[c]]

/-- The per-line cleaning of `extract_text_from_txt`
(`push_to_huggingface.py` lines 63–76): strip square brackets keeping
contents, delete angle-bracket spans, delete `/RD-…/` redaction spans,
delete single-word all-letter parenthesised descriptors, then collapse
whitespace runs and trim (`' '.join(content.split())`). -/
def cleanContent (content : String) : String :=
  String.mk (collapse (subParen (subRD (subAngle (subSquare content.data)))))

/-- The skip rules and the append test of `extract_text_from_txt`
(lines 56–61 and 78–79): `none` when the line contributes no text fragment,
`some cleaned` when `cleaned` is appended to `texts`. -/
def textLine (content : String) : Option String :=
  if "(pause".data.isPrefixOf content.data then none
  else if content = "" then none
  else
    let cleaned := cleanContent content
    if cleaned = "" then none else some cleaned

/-- Lines 51–53 of `push_to_huggingface.py` (same as lines 22–24 of
`verify_stats.py`): `parts = line.strip().split('\t')`, and the content
field `parts[3]` when there are at least 4 fields. -/
def lineContent (line : String) : Option String :=
  let parts := splitTab (pyStrip line.data)
  if parts.length ≥ 4 then some (String.mk (parts.getD 3 [])) else none

/-- `extract_text_from_txt(txt_path)`.  The read is modelled by `delivered`
(the lines the file iterator yields, the header first, without trailing
newlines — `strip` makes this equivalent) and `fails` (whether an I/O
exception interrupts the iteration; open failure is `delivered = []` with
`fails = true`).  The result pairs the returned string with a flag telling
whether the `except` handler ran.  An empty file makes `next(f)` raise
`StopIteration`, which the catch-all `except Exception` catches, so
`delivered = []` takes the handler path even when `fails = false`. -/
def extract_text_from_txt (delivered : List String) (fails : Bool) :
    String × Bool :=
  match delivered with
  | [] => ("", true)
  | _ :: body =>
    if fails then ("", true)
    else
      (String.intercalate " "
        (body.filterMap (fun line => (lineContent line).bind textLine)), false)

/-- Insertion into a Python `dict` (later assignment to the same key
overwrites in place). -/
def insertKV (d : List (String × List (String × String))) (k : String)
    (v : List (String × String)) : List (String × List (String × String)) :=
  match d with
  | [] => [(k, v)]
  | (k2, v2) :: rest =>
    if k2 = k then (k, v) :: rest else (k2, v2) :: insertKV rest k v

/-- The parsing loop of `load_metadata` (`push_to_huggingface.py` lines
107–113): `csv.DictReader(f, delimiter='\t')` is modelled as zipping the
tab-split header with each tab-split data row (blank lines are skipped by
`DictReader`; a key missing from a short row behaves like the `None`
restval, which `row.get('CORAAL.File', '')` turns into a skip); rows whose
`CORAAL.File` value is missing or empty are not inserted. -/
def load_metadata_lines (lines : List String) :
    List (String × List (String × String)) :=
  match lines with
  | [] => []
  | header :: body =>
    let hdr := (splitTab header.data).map String.mk
    (body.filter (fun line => line ≠ "")).foldl
      (fun d line =>
        let row := hdr.zip ((splitTab line.data).map String.mk)
        match row.lookup "CORAAL.File" with
        | some fid => if fid ≠ "" then insertKV d fid row else d
        | none => d) []

/-- `load_metadata`: `none` models a file that cannot be opened or read
(the `except` branch returns `{}`). -/
def load_metadata (file : Option (List String)) :
    List (String × List (String × String)) :=
  match file with
  | none => []
  | some lines => load_metadata_lines lines

/-- Split at the last occurrence of `c`: `some (before, after)` with
`l = before ++ c :: after` and `c ∉ after`. -/
def rsplitLast (c : Char) (l : List Char) : Option (List Char × List Char) :=
  match splitFirst c l.reverse with
  | some (ra, rb) => some (rb.reverse, ra.reverse)
  | none => none

/-- `Path(p).stem`: the final path component without its last suffix;
pathlib takes the suffix from the last dot only when that dot is neither
the first nor the last character of the name. -/
def pathStem (p : String) : String :=
  let name :=
    match rsplitLast '/' p.data with
    | some pr => pr.2
    | none => p.data
  match rsplitLast '.' name with
  | some pr => if pr.1 ≠ [] ∧ pr.2 ≠ [] then String.mk pr.1 else String.mk name
  | none => String.mk name

/-- `parse_filename` (`push_to_huggingface.py` lines 128–143):
`Path(filename).stem`, then `rsplit('_', 1)` keeping the part before the
last underscore when one exists. -/
def parse_filename (filename : String) : String :=
  let base := pathStem filename
  match rsplitLast '_' base.data with
  | some pr => String.mk pr.1
  | none => base

/-- One sample of `collect_dataset_samples` (`push_to_huggingface.py`
lines 197–218): `full_file_id = Path(wav_file).stem` (the comment in the
source says "use full stem for metadata lookup"), metadata looked up under
that full stem with `{}` as default, and the sample dict built with
`file_id = full_file_id` (`sample.update(file_metadata)` is the `metadata`
field; an empty lookup result updates nothing either way). -/
structure Sample where
  audio : String
  text : String
  file_id : String
  metadata : List (String × String)
deriving Repr, DecidableEq

def buildSample (wav_file : String) (text : String)
    (metadata_dict : List (String × List (String × String))) : Sample :=
  let full_file_id := pathStem wav_file
  { audio := wav_file
    text := text
    file_id := full_file_id
    metadata := (metadata_dict.lookup full_file_id).getD [] }

/-! Models of the functions of `verify_stats.py`. -/

/-- `re.sub(r'[<\[\]/]', ' ', content)` (`verify_stats.py` line 36):
replace every `<`, `[`, `]`, `/` by a space. -/
def subChars (l : List Char) : List Char :=
  l.map (fun c => if c = '<' || c = '[' || c = ']' || c = '/' then ' ' else c)

/-- The regex `/RD-[A-Z]+-\d+/` tried at the head of the list
(`verify_stats.py` line 39). -/
def rd2Match : List Char → Option (List Char)
  | a :: b :: c :: d :: rest =>
    if a = '/' ∧ b = 'R' ∧ c = 'D' ∧ d = '-' then
      match rest.dropWhile Char.isUpper with
      | e :: r2 =>
        if rest.takeWhile Char.isUpper = [] ∨ e ≠ '-' then none
        else
          match r2.dropWhile Char.isDigit with
          | f :: r4 =>
            if r2.takeWhile Char.isDigit = [] ∨ f ≠ '/' then none else some r4
          | [] => none
      | [] => none
    else none
  | _ => none

theorem rd2Match_head (c : Char) (rest a : List Char)
    (h : rd2Match (c :: rest) = some a) : c = '/' := by
  by_contra hc
  rcases rest with _ | ⟨x2, _ | ⟨x3, _ | ⟨x4, z⟩⟩⟩ <;> simp only [rd2Match] at h
  pick_goal 4
  · rw [if_neg (fun hcond => hc hcond.1)] at h
    simp at h
  all_goals simp at h

theorem rd2Match_length (l a : List Char) (h : rd2Match l = some a) :
    a.length < l.length := by
  rcases l with _ | ⟨x1, _ | ⟨x2, _ | ⟨x3, _ | ⟨x4, rest⟩⟩⟩⟩ <;>
    simp only [rd2Match] at h
  pick_goal 5
  · by_cases hcond : x1 = '/' ∧ x2 = 'R' ∧ x3 = 'D' ∧ x4 = '-'
    · rw [if_pos hcond] at h
      rcases hdw : rest.dropWhile Char.isUpper with _ | ⟨e, r2⟩
      · rw [hdw] at h; simp at h
      · rw [hdw] at h
        have h2 : (if rest.takeWhile Char.isUpper = [] ∨ e ≠ '-' then none
            else
              match r2.dropWhile Char.isDigit with
              | f :: r4 =>
                if r2.takeWhile Char.isDigit = [] ∨ f ≠ '/' then none
                else some r4
              | [] => none) = some a := h
        by_cases hc1 : rest.takeWhile Char.isUpper = [] ∨ e ≠ '-'
        · rw [if_pos hc1] at h2; simp at h2
        · rw [if_neg hc1] at h2
          rcases hdw2 : r2.dropWhile Char.isDigit with _ | ⟨f, r4⟩
          · rw [hdw2] at h2; simp at h2
          · rw [hdw2] at h2
            have h3 : (if r2.takeWhile Char.isDigit = [] ∨ f ≠ '/' then none
                else some r4) = some a := h2
            by_cases hc2 : r2.takeWhile Char.isDigit = [] ∨ f ≠ '/'
            · rw [if_pos hc2] at h3; simp at h3
            · rw [if_neg hc2] at h3
              have ha : r4 = a := Option.some.inj h3
              subst ha
              have hlen1 : (rest.dropWhile Char.isUpper).length ≤ rest.length :=
                length_dropWhile_le _ rest
              have hlen2 : (r2.dropWhile Char.isDigit).length ≤ r2.length :=
                length_dropWhile_le _ r2
              rw [hdw] at hlen1
              rw [hdw2] at hlen2
              simp only [List.length_cons] at hlen1 hlen2 ⊢
              omega
    · rw [if_neg hcond] at h
      simp at h
  all_goals simp at h

/-- `re.sub(r'/RD-[A-Z]+-\d+/', '', content)` in word-count mode. -/
def subRD2 (l : List Char) : List Char := subScan rd2Match l

theorem hasRD2_false_of_not_mem (l : List Char) (h : '/' ∉ l) :
    scanHas rd2Match l = false := by
  by_contra hc
  exact h (scanHas_mem_head rd2Match '/' rd2Match_head l (by simpa using hc))

theorem subRD2_id_of_no_slash (l : List Char) (h : '/' ∉ l) : subRD2 l = l :=
  subScan_id_of_not_scanHas rd2Match rd2Match_length l
    (hasRD2_false_of_not_mem l h)

/-- The per-line counting of `count_words_from_txt` (`verify_stats.py`
lines 27–45): the same skip rules, then the character replacement, the
redaction substitution, `content.split()` and the filter dropping empty
tokens and tokens starting with `RD-`. -/
def countContent (content : String) : Nat :=
  if "(pause".data.isPrefixOf content.data then 0
  else if content = "" then 0
  else
    ((words (subRD2 (subChars content.data))).filter
      (fun w => !w.isEmpty && !("RD-".data.isPrefixOf w))).length

def countLineWords (line : String) : Nat :=
  match lineContent line with
  | none => 0
  | some content => countContent content

/-- `count_words_from_txt(txt_path)`, with the same read model as
`extract_text_from_txt`.  The `except` handler prints and falls through to
`return word_count`, so the count accumulated from the lines read before a
failure is returned as is. -/
def count_words_from_txt (delivered : List String) (fails : Bool) :
    Nat × Bool :=
  match delivered with
  | [] => (0, true)
  | _ :: body => ((body.map countLineWords).sum, fails)

/-- The regex `xmax\s*=\s*([\d.]+)` tried at the head of the list:
on success returns the captured group. -/
def xmaxAt : List Char → Option (List Char)
  | 'x' :: 'm' :: 'a' :: 'x' :: rest =>
    match rest.dropWhile pyIsSpace with
    | '=' :: r2 =>
      match (r2.dropWhile pyIsSpace).takeWhile (fun c => c.isDigit || c = '.') with
      | [] => none
      | d :: num => some (d :: num)
    | _ => none
  | _ => none

/-- `re.search(r'xmax\s*=\s*([\d.]+)', line)`: leftmost match. -/
def regexFindXmax : List Char → Option (List Char)
  | [] => none
  | c :: rest =>
    match xmaxAt (c :: rest) with
    | some g => some g
    | none => regexFindXmax rest

def digitsNat (l : List Char) : Nat :=
  l.foldl (fun acc c => 10 * acc + (c.toNat - 48)) 0

/-- Python `float(s)` on a string drawn from the alphabet of `[\d.]+`:
defined exactly when there is at least one digit and at most one dot, and
exact as a rational (floats are modelled as exact rationals; the scripts
never do float arithmetic, only parsing). -/
def parseFloat? (s : List Char) : Option ℚ :=
  if s.count '.' ≤ 1 ∧ s.any Char.isDigit then
    some
      (match splitFirst '.' s with
      | none => (digitsNat s : ℚ)
      | some (ip, fp) => (digitsNat ip : ℚ) + (digitsNat fp : ℚ) / 10 ^ fp.length)
  else none

def startsXmax (line : String) : Bool :=
  "xmax =".data.isPrefixOf (pyStrip line.data)

/-- The scanning loop of `get_duration_from_textgrid` (`verify_stats.py`
lines 56–64): first line whose stripped form starts with `xmax =` and on
which the regex finds a number wins; a `float()` failure raises, is caught,
and yields 0.0; no such line yields 0.0. -/
def get_duration_lines : List String → ℚ
  | [] => 0
  | l :: ls =>
    if startsXmax l then
      match regexFindXmax l.data with
      | some g =>
        match parseFloat? g with
        | some q => q
        | none => 0
      | none => get_duration_lines ls
    else get_duration_lines ls

/-- `get_duration_from_textgrid(textgrid_path)`: `none` models a file that
cannot be opened or read (the `except` branch returns 0.0). -/
def get_duration_from_textgrid : Option (List String) → ℚ
  | none => 0
  | some ls => get_duration_lines ls

/-! Helper lemmas for the claim proofs. -/

theorem map_eq_self (f : Char → Char) :
    ∀ (l : List Char), (∀ a ∈ l, f a = a) → l.map f = l := by
  intro l
  induction l with
  | nil => intro _; rfl
  | cons a l ih =>
    intro h
    rw [List.map_cons, h a (by simp), ih (fun b hb => h b (List.mem_cons_of_mem a hb))]

theorem subChars_id (l : List Char)
    (h : ∀ c ∈ l, c ≠ '<' ∧ c ≠ '[' ∧ c ≠ ']' ∧ c ≠ '/') : subChars l = l := by
  rw [subChars]
  apply map_eq_self
  intro a ha
  obtain ⟨h1, h2, h3, h4⟩ := h a ha
  rw [if_neg]
  simp [h1, h2, h3, h4]

theorem not_mem_subChars_slash (l : List Char) : '/' ∉ subChars l := by
  intro hmem
  rw [subChars] at hmem
  obtain ⟨c, _, hf⟩ := List.mem_map.mp hmem
  by_cases hcond : c = '<' || c = '[' || c = ']' || c = '/'
  · rw [if_pos hcond] at hf
    exact absurd hf (by decide)
  · rw [if_neg hcond] at hf
    subst hf
    exact hcond (by decide)

theorem joinSp_good_eq_nil (ws : List (List Char))
    (hgood : ∀ w ∈ ws, w ≠ []) (h : joinSp ws = []) : ws = [] := by
  cases ws with
  | nil => rfl
  | cons w ws2 =>
    cases ws2 with
    | nil => exact absurd h (hgood w (by simp))
    | cons x ws3 =>
      rw [joinSp] at h
      rcases List.append_eq_nil.mp h with ⟨-, h2⟩
      simp at h2

theorem collapse_eq_nil (l : List Char) (h : collapse l = []) :
    words l = [] := by
  exact joinSp_good_eq_nil (words l) (fun w hw => (words_good l w hw).1) h

theorem lookup_cons_if {β : Type} (k2 k : String) (v : β)
    (rest : List (String × β)) :
    List.lookup k2 ((k, v) :: rest)
      = if k2 = k then some v else List.lookup k2 rest := by
  by_cases h : k2 = k
  · subst h; simp [List.lookup]
  · rw [List.lookup_cons, beq_eq_false_iff_ne.mpr h]
    simp [h]

theorem insertKV_lookup (k : String) (v : List (String × String)) :
    ∀ (d : List (String × List (String × String))) (k2 : String),
      (insertKV d k v).lookup k2 = if k2 = k then some v else d.lookup k2 := by
  intro d
  induction d with
  | nil =>
    intro k2
    rw [insertKV, lookup_cons_if]
  | cons p rest ih =>
    intro k2
    obtain ⟨k3, v3⟩ := p
    by_cases h3 : k3 = k
    · subst h3
      rw [insertKV, if_pos rfl, lookup_cons_if, lookup_cons_if]
      by_cases hk : k2 = k3 <;> simp [hk]
    · rw [insertKV, if_neg h3, lookup_cons_if, lookup_cons_if, ih k2]
      by_cases hk : k2 = k3
      · subst hk
        rw [if_pos rfl, if_neg (fun he : k2 = k => h3 (he ▸ rfl)), if_pos rfl]
      · rw [if_neg hk, if_neg hk]

/-- Every row stored by the metadata parsing loop is keyed by its own
non-empty `CORAAL.File` value. -/
theorem load_fold_invariant (hdr : List String) :
    ∀ (lines : List String) (d : List (String × List (String × String))),
      (∀ k2 r2, d.lookup k2 = some r2 →
        r2.lookup "CORAAL.File" = some k2 ∧ k2 ≠ "") →
      ∀ k r,
        (lines.foldl
          (fun d line =>
            let row := hdr.zip ((splitTab line.data).map String.mk)
            match row.lookup "CORAAL.File" with
            | some fid => if fid ≠ "" then insertKV d fid row else d
            | none => d) d).lookup k = some r →
        r.lookup "CORAAL.File" = some k ∧ k ≠ "" := by
  intro lines
  induction lines with
  | nil => intro d hd k r h; exact hd k r h
  | cons line lines ih =>
    intro d hd k r h
    rw [List.foldl_cons] at h
    refine ih _ ?_ k r h
    intro k2 r2 h2
    rcases hlk : (hdr.zip ((splitTab line.data).map String.mk)).lookup
        "CORAAL.File" with _ | fid
    · simp only [hlk] at h2
      exact hd k2 r2 h2
    · simp only [hlk] at h2
      by_cases hfid : fid ≠ ""
      · rw [if_pos hfid, insertKV_lookup] at h2
        by_cases hk2 : k2 = fid
        · rw [if_pos hk2] at h2
          have hr2 := Option.some.inj h2
          subst hr2
          subst hk2
          exact ⟨hlk, hfid⟩
        · rw [if_neg hk2] at h2
          exact hd k2 r2 h2
      · rw [if_neg hfid] at h2
        exact hd k2 r2 h2

theorem load_metadata_row_keyed (file : Option (List String)) (k : String)
    (r : List (String × String))
    (h : (load_metadata file).lookup k = some r) :
    r.lookup "CORAAL.File" = some k ∧ k ≠ "" := by
  cases file with
  | none => simp [load_metadata, List.lookup] at h
  | some lines =>
    cases lines with
    | nil => simp [load_metadata, load_metadata_lines, List.lookup] at h
    | cons header body =>
      rw [load_metadata, load_metadata_lines] at h
      exact load_fold_invariant ((splitTab header.data).map String.mk)
        (body.filter (fun line => line ≠ "")) []
        (fun k2 r2 h2 => by simp [List.lookup] at h2) k r h

/-- Number of whitespace-separated tokens in the text fragment that text
mode produces for a content field (0 when the line is skipped or the
cleaned fragment is empty and nothing is appended). -/
def textTokens (content : String) : Nat :=
  match textLine content with
  | none => 0
  | some t => (words t.data).length

def lineTextTokens (line : String) : Nat :=
  match lineContent line with
  | none => 0
  | some content => textTokens content

/-- A content string with none of the four kinds of markup the text-mode
cleaning removes: no square bracket, no angle-bracket span, no
slash-delimited `RD-` redaction span, no single-word all-letter
parenthesised descriptor. -/
def isClean (content : String) : Prop :=
  hasSquare content.data = false ∧ hasAngle content.data = false ∧
    hasRD content.data = false ∧ hasParen content.data = false

/-! The claims. -/

/-- C1 (counterexample): for the audio file `ATL_se0_ag1_f_01_1.wav` the
pipeline stores the full stem `ATL_se0_ag1_f_01_1` in `file_id`, not the
suffix-stripped `ATL_se0_ag1_f_01` the claim asserts. -/
theorem claim_C1_cex :
    (buildSample "ATL_se0_ag1_f_01_1.wav" "" []).file_id ≠ "ATL_se0_ag1_f_01" := by
  decide

/-- C1 (amended): the sample's `file_id` and the key used for the
metadata-table lookup are both the full filename stem, with the trailing
`_<session>` suffix retained (`ATL_se0_ag1_f_01_1` for the example);
`parse_filename` computes the suffix-stripped identifier
`ATL_se0_ag1_f_01`, but `collect_dataset_samples` does not use it. -/
theorem claim_C1 :
    ∀ (wav text : String) (md : List (String × List (String × String))),
      (buildSample wav text md).file_id = pathStem wav ∧
      (buildSample wav text md).metadata = (md.lookup (pathStem wav)).getD [] ∧
      (buildSample "ATL_se0_ag1_f_01_1.wav" text md).file_id
        = "ATL_se0_ag1_f_01_1" ∧
      parse_filename "ATL_se0_ag1_f_01_1.wav" = "ATL_se0_ag1_f_01" := by
  intro wav text md
  exact ⟨rfl, rfl, rfl, by decide⟩

/-- C4 (counterexample): when an I/O failure interrupts the read after one
transcript line was already processed, the word counter returns the
partial count 2 for the line `hello world`, not zero. -/
theorem claim_C4_cex :
    (count_words_from_txt
      ["Line\tSpkr\tStTime\tContent", "A\t1\t2\thello world"] true).1 ≠ 0 := by
  decide

/-- C4 (amended): on an I/O failure the text extractor returns the empty
string whatever was read before, but the word counter returns the count
accumulated from the lines delivered before the failure (zero only when
the failure happens at open or before any content line): its `except`
branch falls through to `return word_count` without resetting it. -/
theorem claim_C4 :
    ∀ (delivered : List String),
      (extract_text_from_txt delivered true).1 = "" ∧
      (count_words_from_txt delivered true).1
        = (delivered.tail.map countLineWords).sum := by
  intro delivered
  cases delivered with
  | nil => exact ⟨rfl, rfl⟩
  | cons h body => exact ⟨rfl, rfl⟩

/-- C5: on the content field
`"[he] <laugh> said /RD-NAME-1/ (breathy) hello"` the text-mode cleaning
(strip square brackets keeping contents, remove angle-bracket spans,
remove `/RD-…/` redaction spans, remove single-word all-letter
parenthesised descriptors, collapse whitespace — in that order) yields
exactly `"he said hello"`, and that fragment is what the line contributes. -/
theorem claim_C5 :
    cleanContent "[he] <laugh> said /RD-NAME-1/ (breathy) hello"
        = "he said hello" ∧
    textLine "[he] <laugh> said /RD-NAME-1/ (breathy) hello"
        = some "he said hello" := by
  exact ⟨by decide, by decide⟩

/-- C7: a content field that is empty or starts with `(pause` is skipped
by both modes: word-count mode contributes zero and text mode appends no
fragment. -/
theorem claim_C7 (content : String)
    (h : content = "" ∨ "(pause".data.isPrefixOf content.data = true) :
    countContent content = 0 ∧ textLine content = none := by
  rcases h with h | h
  · subst h
    exact ⟨rfl, rfl⟩
  · rw [countContent, textLine, if_pos h, if_pos h]
    exact ⟨rfl, rfl⟩

/-- C7 (witness at `"(pause 0.5)"`). -/
theorem claim_C7_witness :
    ("(pause 0.5)" = "" ∨ "(pause".data.isPrefixOf "(pause 0.5)".data = true) ∧
      countContent "(pause 0.5)" = 0 ∧ textLine "(pause 0.5)" = none :=
  ⟨Or.inr (by decide), claim_C7 "(pause 0.5)" (Or.inr (by decide))⟩

/-- C9: in word-count mode the redaction substitution
`re.sub(r'/RD-[A-Z]+-\d+/', '', …)` is an identity on every input it ever
receives, because the preceding substitution has already replaced every
`/` (as well as `<`, `[`, `]`) by a space, so no slash-delimited span can
remain; redacted material is excluded from the count only by the final
filter on `RD-`-prefixed tokens. -/
theorem claim_C9 (content : String) :
    subRD2 (subChars content.data) = subChars content.data :=
  subRD2_id_of_no_slash (subChars content.data)
    (not_mem_subChars_slash content.data)

/-- C10: on a transcript file with zero lines the unconditional header
skip `next(f)` raises `StopIteration`, the catch-all handler runs (the
flag is `true`), and the functions return the empty string and zero
without raising — even though no I/O failure occurred. -/
theorem claim_C10 :
    extract_text_from_txt [] false = ("", true) ∧
    count_words_from_txt [] false = (0, true) :=
  ⟨rfl, rfl⟩

/-- C3 (counterexample): for the metadata file with header
`CORAAL.File⇥Age⇥Gender` and row `ATL_se0_ag1_f_01⇥19⇥f`, the row the
mapping returns also contains the `CORAAL.File` column itself
(`csv.DictReader` rows carry every column), so it is not exactly
`{'Age': '19', 'Gender': 'f'}`. -/
theorem claim_C3_cex :
    (((load_metadata (some ["CORAAL.File\tAge\tGender",
        "ATL_se0_ag1_f_01\t19\tf"])).lookup "ATL_se0_ag1_f_01").getD
      []).lookup "CORAAL.File" = some "ATL_se0_ag1_f_01" := by
  decide

/-- C3 (amended): for that metadata file, looking up `ATL_se0_ag1_f_01`
returns the full row `{'CORAAL.File': 'ATL_se0_ag1_f_01', 'Age': '19',
'Gender': 'f'}` (the identifier column included) and looking up any other
identifier returns no match; in general every row stored in the mapping is
keyed by its own non-empty `CORAAL.File` value, so rows whose value is
empty or missing are skipped. -/
theorem claim_C3 :
    (∀ (k : String),
      (load_metadata (some ["CORAAL.File\tAge\tGender",
          "ATL_se0_ag1_f_01\t19\tf"])).lookup k
        = if k = "ATL_se0_ag1_f_01" then
            some [("CORAAL.File", "ATL_se0_ag1_f_01"), ("Age", "19"),
              ("Gender", "f")]
          else none) ∧
    (∀ (file : Option (List String)) (k : String)
        (r : List (String × String)),
      (load_metadata file).lookup k = some r →
      r.lookup "CORAAL.File" = some k ∧ k ≠ "") := by
  constructor
  · intro k
    have hld : load_metadata (some ["CORAAL.File\tAge\tGender",
        "ATL_se0_ag1_f_01\t19\tf"])
        = [("ATL_se0_ag1_f_01",
            [("CORAAL.File", "ATL_se0_ag1_f_01"), ("Age", "19"),
              ("Gender", "f")])] := by decide
    rw [hld, lookup_cons_if]
    rfl
  · exact fun file k r h => load_metadata_row_keyed file k r h

/-- C3 (witness): the amended claim applied at the example file, at the
matching key, at a non-matching key, and at the stored row. -/
theorem claim_C3_witness :
    ((load_metadata (some ["CORAAL.File\tAge\tGender",
        "ATL_se0_ag1_f_01\t19\tf"])).lookup "ATL_se0_ag1_f_01"
      = some [("CORAAL.File", "ATL_se0_ag1_f_01"), ("Age", "19"),
          ("Gender", "f")]) ∧
    ((load_metadata (some ["CORAAL.File\tAge\tGender",
        "ATL_se0_ag1_f_01\t19\tf"])).lookup "DCA_se1_ag1_m_01" = none) ∧
    ([("CORAAL.File", "ATL_se0_ag1_f_01"), ("Age", "19"),
        ("Gender", "f")].lookup "CORAAL.File" = some "ATL_se0_ag1_f_01" ∧
      "ATL_se0_ag1_f_01" ≠ "") :=
  ⟨(claim_C3.1 "ATL_se0_ag1_f_01").trans (if_pos rfl),
   (claim_C3.1 "DCA_se1_ag1_m_01").trans (if_neg (by decide)),
   claim_C3.2 (some ["CORAAL.File\tAge\tGender", "ATL_se0_ag1_f_01\t19\tf"])
     "ATL_se0_ag1_f_01"
     [("CORAAL.File", "ATL_se0_ag1_f_01"), ("Age", "19"), ("Gender", "f")]
     (by decide)⟩

/-- C6: the duration extractor returns the number the regex
`xmax\s*=\s*([\d.]+)` parses on the first line whose stripped form starts
with `xmax =`; on a file containing the line `xmax = 125.430000 ` it
returns 125.43 (floats modelled as exact rationals); and it returns 0 —
a valid result, not an error — both on a read failure (`none`) and when no
such line exists. -/
theorem claim_C6 :
    (∀ (pre post : List String) (l : String) (q : ℚ),
        (∀ m ∈ pre, startsXmax m = false) → startsXmax l = true →
        (regexFindXmax l.data).bind parseFloat? = some q →
        get_duration_from_textgrid (some (pre ++ l :: post)) = q) ∧
    get_duration_from_textgrid
        (some ["File type = ooTextFile", "xmax = 125.430000 "])
      = (125.43 : ℚ) ∧
    get_duration_from_textgrid none = 0 ∧
    (∀ (ls : List String), (∀ m ∈ ls, startsXmax m = false) →
        get_duration_from_textgrid (some ls) = 0) := by
  refine ⟨?_, ?_, rfl, ?_⟩
  · intro pre
    induction pre with
    | nil =>
      intro post l q _ hl hbind
      obtain ⟨g, hg, hq⟩ := Option.bind_eq_some.mp hbind
      show get_duration_lines (l :: post) = q
      rw [get_duration_lines, if_pos hl, hg]
      show (match parseFloat? g with | some q2 => q2 | none => 0) = q
      rw [hq]
    | cons m pre ih =>
      intro post l q hpre hl hbind
      have hm : startsXmax m = false := hpre m (by simp)
      show get_duration_lines (m :: (pre ++ l :: post)) = q
      rw [get_duration_lines, if_neg (by simp [hm])]
      exact ih post l q (fun m2 hm2 => hpre m2 (List.mem_cons_of_mem m hm2))
        hl hbind
  · have h0 : get_duration_from_textgrid
        (some ["File type = ooTextFile", "xmax = 125.430000 "])
        = (digitsNat "125".data : ℚ)
          + (digitsNat "430000".data : ℚ) / 10 ^ ("430000".data).length := rfl
    rw [h0]
    have h1 : digitsNat "125".data = 125 := by decide
    have h2 : digitsNat "430000".data = 430000 := by decide
    have h3 : ("430000".data).length = 6 := by decide
    rw [h1, h2, h3]
    norm_num
  · intro ls hls
    induction ls with
    | nil => rfl
    | cons m ls ih =>
      have hm : startsXmax m = false := hls m (by simp)
      show get_duration_lines (m :: ls) = 0
      rw [get_duration_lines, if_neg (by simp [hm])]
      exact ih (fun m2 hm2 => hls m2 (List.mem_cons_of_mem m hm2))

/-- C6 (witness): the scanning clause applied at a concrete two-line grid
file and the no-line clause at a one-line file. -/
theorem claim_C6_witness :
    (∀ m ∈ ["File type = ooTextFile"], startsXmax m = false) ∧
    startsXmax "xmax = 125.430000 " = true ∧
    ((regexFindXmax "xmax = 125.430000 ".data).bind parseFloat?
      = some ((digitsNat "125".data : ℚ)
          + (digitsNat "430000".data : ℚ) / 10 ^ ("430000".data).length)) ∧
    (get_duration_from_textgrid
        (some (["File type = ooTextFile"] ++ "xmax = 125.430000 " :: []))
      = (digitsNat "125".data : ℚ)
          + (digitsNat "430000".data : ℚ) / 10 ^ ("430000".data).length) ∧
    get_duration_from_textgrid (some ["File type = ooTextFile"]) = 0 :=
  ⟨by decide, by decide, rfl,
   claim_C6.1 ["File type = ooTextFile"] [] "xmax = 125.430000 " _
     (by decide) (by decide) rfl,
   claim_C6.2.2.2 ["File type = ooTextFile"] (by decide)⟩

/-- C2 (counterexample): the transcript line `A⇥1⇥2⇥<laugh>` has four
tab-separated fields; word-count mode contributes 1 (the token `laugh>`
left after `<` is replaced by a space), while text mode deletes the whole
angle-bracket span and produces no token. -/
theorem claim_C2_cex :
    lineContent "A\t1\t2\t<laugh>" = some "<laugh>" ∧
    countLineWords "A\t1\t2\t<laugh>" = 1 ∧
    lineTextTokens "A\t1\t2\t<laugh>" = 0 :=
  ⟨by decide, by decide, by decide⟩

/-- C2 (amended): the two modes implement different markup-stripping rules
and can disagree (see the counterexample); they do agree on every content
field that contains none of the markup characters `<`, `[`, `]`, `/`, `(`
and none of whose whitespace-tokens starts with `RD-`: there the
word-count contribution equals the number of whitespace-separated tokens
of the cleaned text text mode produces. -/
theorem claim_C2 (content : String)
    (hchars : ∀ c ∈ content.data,
      c ≠ '<' ∧ c ≠ '[' ∧ c ≠ ']' ∧ c ≠ '/' ∧ c ≠ '(')
    (hrd : ∀ w ∈ words content.data, "RD-".data.isPrefixOf w = false) :
    countContent content = textTokens content := by
  by_cases hempty : content = ""
  · subst hempty
    rfl
  · have hpause : ("(pause".data.isPrefixOf content.data) = false := by
      by_contra hb
      have hb2 : "(pause".data.isPrefixOf content.data = true := by
        simpa using hb
      obtain ⟨t, ht⟩ := List.isPrefixOf_iff_prefix.mp hb2
      have hmem : '(' ∈ content.data := by
        rw [← ht]
        exact List.mem_append_left _ (by decide)
      exact (hchars '(' hmem).2.2.2.2 rfl
    have hslash : '/' ∉ content.data := fun hm => (hchars '/' hm).2.2.2.1 rfl
    have hsub1 : subChars content.data = content.data :=
      subChars_id content.data (fun c hc =>
        ⟨(hchars c hc).1, (hchars c hc).2.1, (hchars c hc).2.2.1,
          (hchars c hc).2.2.2.1⟩)
    have hsub2 : subRD2 content.data = content.data :=
      subRD2_id_of_no_slash _ hslash
    have hcount : countContent content = (words content.data).length := by
      rw [countContent, if_neg (by simp [hpause]), if_neg hempty, hsub1, hsub2]
      congr 1
      apply List.filter_eq_self.mpr
      intro w hw
      have hw1 : w ≠ [] := (words_good content.data w hw).1
      have hw2 := hrd w hw
      cases w with
      | nil => exact absurd rfl hw1
      | cons a as => simp [List.isEmpty, hw2]
    have hc1 : hasSquare content.data = false :=
      hasSquare_false_of_not_mem _ (fun hm => (hchars '[' hm).2.1 rfl)
        (fun hm => (hchars ']' hm).2.2.1 rfl)
    have hc2 : hasAngle content.data = false :=
      hasAngle_false_of_not_mem _ (fun hm => (hchars '<' hm).1 rfl)
    have hc3 : hasRD content.data = false := hasRD_false_of_not_mem _ hslash
    have hc4 : hasParen content.data = false :=
      hasParen_false_of_not_mem _ (fun hm => (hchars '(' hm).2.2.2.2 rfl)
    have hclean : cleanContent content = String.mk (collapse content.data) := by
      rw [cleanContent, subSquare_id _ hc1, subAngle_id _ hc2, subRD_id _ hc3,
        subParen_id _ hc4]
    have htl : textLine content
        = if cleanContent content = "" then none
          else some (cleanContent content) := by
      rw [textLine, if_neg (by simp [hpause]), if_neg hempty]
    by_cases hcl : cleanContent content = ""
    · rw [hclean] at hcl
      have hnil : collapse content.data = [] := by
        have := congrArg String.data hcl
        simpa using this
      have hw0 : words content.data = [] := collapse_eq_nil _ hnil
      rw [hcount, hw0, textTokens, htl, if_pos (by rw [hclean]; exact hcl)]
      rfl
    · rw [hcount, textTokens, htl, if_neg hcl, hclean]
      show (words content.data).length = (words (collapse content.data)).length
      rw [words_collapse]

/-- C2 (witness): the amended claim applied at the markup-free content
`"he said hello"`. -/
theorem claim_C2_witness :
    (∀ c ∈ "he said hello".data,
      c ≠ '<' ∧ c ≠ '[' ∧ c ≠ ']' ∧ c ≠ '/' ∧ c ≠ '(') ∧
    (∀ w ∈ words "he said hello".data, "RD-".data.isPrefixOf w = false) ∧
    countContent "he said hello" = textTokens "he said hello" :=
  ⟨by decide, by decide, claim_C2 "he said hello" (by decide) (by decide)⟩

/-- C8: on a content string that is already clean — no square bracket, no
angle-bracket span, no slash-delimited `RD-` redaction span, no
single-word all-letter parenthesised descriptor — the per-line text-mode
cleaning is idempotent: applying it to its own output returns the output
unchanged. -/
theorem claim_C8 (content : String) (h : isClean content) :
    cleanContent (cleanContent content) = cleanContent content := by
  obtain ⟨h1, h2, h3, h4⟩ := h
  have hc1 : cleanContent content = String.mk (collapse content.data) := by
    rw [cleanContent, subSquare_id _ h1, subAngle_id _ h2, subRD_id _ h3,
      subParen_id _ h4]
  rw [hc1]
  show String.mk (collapse (subParen (subRD (subAngle (subSquare
      (collapse content.data)))))) = String.mk (collapse content.data)
  rw [subSquare_id _ (hasSquare_collapse _ h1),
    subAngle_id _ (hasAngle_collapse _ h2),
    subRD_id _ (hasRD_collapse _ h3),
    subParen_id _ (hasParen_collapse _ h4), collapse_idem]

/-- C8 (witness): idempotence at the clean content `"he said hello"`. -/
theorem claim_C8_witness :
    isClean "he said hello" ∧
    cleanContent (cleanContent "he said hello")
      = cleanContent "he said hello" :=
  ⟨⟨by decide, by decide, by decide, by decide⟩,
   claim_C8 "he said hello" ⟨by decide, by decide, by decide, by decide⟩⟩

end Coraal
